import Mathlib

/-!
Verification of the density-based clustering and dimensionality-reduction
stage of the Overseer pipeline.

The embedding covers:
* src/api/embeddings.py, find_dense_clusters: selection of the densest
  clusters (density formula, stable descending sort over the per-label
  density dictionary, top-K truncation, empty-result branch, parameter
  defaults).
* src/api/cluster_analysis.py, save_cluster_embeddings and
  normalize_embeddings: the standardize/PCA/normalize export path with the
  1e-10 norm floor.
* src/api/create_unbiased_dataset.py, create_unbiased_dataset: the
  rebalancer (seeded per-cluster removal sampling, keep-mask construction,
  embedding split, single PCA fit on the full matrix, floor-less row
  normalization).

External library calls (HDBSCAN, NearestNeighbors, the PCA eigensolver,
the Mersenne-Twister sampler and real square roots) are modelled as
explicit parameters; every piece of arithmetic and control flow that the
repository itself performs is translated directly.  Real-valued data is
modelled over the rationals; the square root that numpy computes inside a
row normalization is passed in as a value n characterized by
n * n = sumSq v together with 0 <= n.
-/

namespace Overseer

/-! ### Density estimate (src/api/embeddings.py lines 61-79) -/

/-- k = min(5, len(cluster_points) - 1): neighbor count used for the
density estimate of a cluster with m points (line 67; Nat subtraction
models the clamp at 0 for a singleton). -/
def neighborCount (m : Nat) : Nat := min 5 (m - 1)

/-- avg_dist = np.mean over the per-point mean neighbor distances
(line 72); for the empty list this is 0/0 = 0 in the rational model. -/
def avgOf (ds : List ℚ) : ℚ := ds.sum / ds.length

/-- density = 1.0 / (avg_dist + 1e-6) when k > 0, else the sentinel 0
(lines 68-76). -/
def clusterDensityFromAvg (m : Nat) (avg : ℚ) : ℚ :=
  if 0 < neighborCount m then 1 / (avg + 1 / 1000000) else 0

/-- Density of a cluster with m points whose per-point mean k-NN
distances are ds (the library call NearestNeighbors.kneighbors produces
ds; the repository then averages and inverts). -/
def clusterDensityOf (m : Nat) (ds : List ℚ) : ℚ :=
  clusterDensityFromAvg m (avgOf ds)

/-! ### Row normalization (src/api/cluster_analysis.py lines 194-204 and
src/api/create_unbiased_dataset.py lines 157-164) -/

/-- Sum of squares of a row; norms in the source are sqrt of this. -/
def sumSq (v : List ℚ) : ℚ := (v.map (fun x => x * x)).sum

/-- cluster_analysis.normalize_embeddings, one row: norms are floored by
np.maximum(norms, 1e-10) before dividing.  n is the square root of
sumSq v computed by np.sqrt, passed in explicitly. -/
def normalizeRowFloor (v : List ℚ) (n : ℚ) : List ℚ :=
  v.map (fun x => x / max n (1 / 10 ^ 10))

/-- create_unbiased_dataset.normalize_embeddings, one row: the row is
divided by its exact norm, with no floor. -/
def normalizeRowRaw (v : List ℚ) (n : ℚ) : List ℚ :=
  v.map (fun x => x / n)

/-! ### Clustering parameters (src/api/embeddings.py lines 33 and 171-176) -/

/-- The three keyword parameters of find_dense_clusters. -/
structure ClusterParams where
  min_cluster_size : Nat
  min_samples : Nat
  n_clusters : Nat
deriving DecidableEq

/-- Defaults in the signature on line 33:
def find_dense_clusters(embeddings, min_cluster_size=5, min_samples=5,
n_clusters=10). -/
def findDenseClustersDefaults : ClusterParams := ⟨5, 5, 10⟩

/-- Parameters that main() passes explicitly on lines 171-176:
min_cluster_size=10, min_samples=5, n_clusters=n_clusters. -/
def mainCallParams (k : Nat) : ClusterParams := ⟨10, 5, k⟩

/-! ### Dense-cluster selection (src/api/embeddings.py lines 44-100) -/

/-- np.unique(cluster_labels) with the noise label removed (lines
47-48): the sorted, duplicate-free labels different from -1. -/
def uniqueNonNoiseLabels (labels : List Int) : List Int :=
  (labels.dedup.insertionSort (· ≤ ·)).filter (fun l => decide (l ≠ -1))

/-- Ordering used by sorted(cluster_densities.items(), key=lambda x:
x[1], reverse=True) on line 82: a pair comes first when its density is
at least the other's.  CPython's sort is stable and the dictionary built
on lines 57-79 iterates in insertion order, which is ascending label
order; insertionSort with this relation is likewise stable, so it
produces the same list. -/
def densityGe (a b : Int × ℚ) : Prop := b.2 ≤ a.2

instance : DecidableRel densityGe := fun a b =>
  inferInstanceAs (Decidable (b.2 ≤ a.2))

instance : IsTotal (Int × ℚ) densityGe := ⟨fun a b => le_total b.2 a.2⟩

instance : IsTrans (Int × ℚ) densityGe :=
  ⟨fun _ _ _ hab hbc => le_trans hbc hab⟩

/-- sorted_clusters (line 82): stable sort of the (label, density)
pairs, descending by density. -/
def sortByDensityDesc (pairs : List (Int × ℚ)) : List (Int × ℚ) :=
  pairs.insertionSort densityGe

/-- Lines 81-87: build the (label, density) items in ascending label
order, stable-sort them descending by density, and keep the first
n_densest = min(n_clusters, len(sorted_clusters)) labels. -/
def selectDensest (labels : List Int) (density : Int → ℚ) (K : Nat) :
    List Int :=
  let pairs := (uniqueNonNoiseLabels labels).map (fun l => (l, density l))
  let sorted := sortByDensityDesc pairs
  (sorted.take (min K sorted.length)).map Prod.fst

/-- np.where(cluster_labels == label)[0] (line 64): the positions
carrying a given label, in ascending order. -/
def clusterMemberIndices (labels : List Int) (l : Int) : List Nat :=
  (List.range labels.length).filter (fun i => decide (labels.getD i (-1) = l))

/-- find_dense_clusters after the HDBSCAN library call (lines 44-100):
given the label vector the clusterer produced and the per-label density
(lines 61-79, parameterized over the NearestNeighbors distances), return
([], []) when no non-noise cluster exists (lines 53-55), else the
densest labels paired with their member index lists. -/
def findDenseClusters (labels : List Int) (density : Int → ℚ) (K : Nat) :
    List Int × List (List Nat) :=
  if (uniqueNonNoiseLabels labels).length = 0 then ([], [])
  else
    (selectDensest labels density K,
      (selectDensest labels density K).map (clusterMemberIndices labels))

/-! ### Rebalancer removal sampling
(src/api/create_unbiased_dataset.py lines 66-118) -/

/-- unique_resume_ids = list(set(resume_ids)) (line 76): deterministic
deduplication of a cluster's member id list. -/
def dedupIds (ids : List Nat) : List Nat := ids.dedup

/-- Abstract model of Python's global random module: seedState s is the
generator state right after random.seed(s); sample takes the current
state, a population and a sample size, and returns the selected elements
together with the advanced state.  The Mersenne-Twister internals are
library code; the repository only seeds and samples. -/
structure RNGModel where
  seedState : Nat → Nat
  sample : Nat → List Nat → Nat → List Nat × Nat

/-- One iteration of the per-cluster loop (lines 71-88): random.seed(42),
unique_resume_ids = list(set(resume_ids)), num_to_remove = len // 2, then
random.sample(unique_resume_ids, k=num_to_remove).  The incoming
generator state s is discarded by the seed call. -/
def clusterRemovalStep (R : RNGModel) (s : Nat) (ids : List Nat) :
    List Nat × Nat :=
  R.sample (R.seedState 42) (dedupIds ids) ((dedupIds ids).length / 2)

/-- The whole removal loop over the loaded clusters, threading the
generator state; the first component is indices_to_remove (before the
global deduplication on line 91). -/
def removalLoop (R : RNGModel) : List (List Nat) → Nat → List Nat × Nat
  | [], s => ([], s)
  | ids :: rest, s =>
    ((clusterRemovalStep R s ids).1 ++
        (removalLoop R rest (clusterRemovalStep R s ids).2).1,
      (removalLoop R rest (clusterRemovalStep R s ids).2).2)

/-- df_unbiased = df_full.drop(unique_indices_to_remove) (line 98), with
the dataframe modelled by its row labels 0..N-1: the rows whose label is
not listed, in original order. -/
def dfDrop (N : Nat) (rs : List Nat) : List Nat :=
  (List.range N).filter (fun i => decide (i ∉ rs))

/-- removed_df = df_full.loc[unique_indices_to_remove] (line 115): one
row per listed label, defined under the precondition that every listed
label is an actual row label (pandas raises a KeyError otherwise). -/
def dfLoc (N : Nat) (rs : List Nat) : List Nat := rs

/-- A concrete sampler satisfying the random.sample contract: it returns
the first k elements of the population and leaves the state unchanged. -/
def takeSampler : RNGModel := ⟨fun n => n, fun s pop k => (pop.take k, s)⟩

/-! ### PCA pipeline (src/api/create_unbiased_dataset.py lines 144-164
and src/api/cluster_analysis.py lines 149-159) -/

/-- Dot product of two equal-length rows. -/
def dot (a b : List ℚ) : ℚ := (List.zipWith (fun x y => x * y) a b).sum

/-- Subtract the fitted per-feature mean from a row. -/
def centerRow (mean x : List ℚ) : List ℚ :=
  List.zipWith (fun xi mi => xi - mi) x mean

/-- Divide a row by the fitted per-feature scale. -/
def scaleRow (scale x : List ℚ) : List ℚ :=
  List.zipWith (fun xi si => xi / si) x scale

/-- StandardScaler.transform on one row: (x - mean) / scale. -/
def standardizeRow (mean scale x : List ℚ) : List ℚ :=
  scaleRow scale (centerRow mean x)

/-- Fitted state of sklearn PCA(n_components=6): the per-feature mean of
the matrix it was fit on and the 6 principal axes.  The eigensolver that
produces the axes is library code; this fitted state is what transform
consumes. -/
structure FittedPCA where
  mean : List ℚ
  axes : List (List ℚ)

/-- PCA.transform on one row: center with the fitted mean, then project
onto each principal axis. -/
def pcaRow (f : FittedPCA) (x : List ℚ) : List ℚ :=
  f.axes.map (fun a => dot (centerRow f.mean x) a)

/-- PCA.transform on a matrix: row-wise. -/
def pcaTransform (f : FittedPCA) (m : List (List ℚ)) : List (List ℚ) :=
  m.map (pcaRow f)

/-- StandardScaler.transform on a matrix: row-wise. -/
def scalerTransform (mean scale : List ℚ) (m : List (List ℚ)) :
    List (List ℚ) :=
  m.map (standardizeRow mean scale)

/-- Row-wise floor-less normalization of a matrix, nf being the norm
function (np.sqrt of a row's sum of squares). -/
def normalizeMatrixRaw (nf : List ℚ → ℚ) (m : List (List ℚ)) :
    List (List ℚ) :=
  m.map (fun v => normalizeRowRaw v (nf v))

/-- Row-wise floored normalization of a matrix. -/
def normalizeMatrixFloor (nf : List ℚ → ℚ) (m : List (List ℚ)) :
    List (List ℚ) :=
  m.map (fun v => normalizeRowFloor v (nf v))

/-- The rebalancer's 6-D production for one set of rows
(create_unbiased_dataset.py lines 144-164): pca.transform on the raw
embeddings followed by the floor-less normalization.  No StandardScaler
appears on this path. -/
def rebalancer6d (f : FittedPCA) (nf : List ℚ → ℚ)
    (rows : List (List ℚ)) : List (List ℚ) :=
  normalizeMatrixRaw nf (pcaTransform f rows)

/-- The per-cluster export path (cluster_analysis.py lines 149-159):
scaler.fit_transform, then pca.fit_transform on the standardized
cluster matrix, then the floored normalization; the fitted scaler state
(mean, scale) and the PCA state g are explicit. -/
def clusterAnalysis6d (mean scale : List ℚ) (g : FittedPCA)
    (nf : List ℚ → ℚ) (rows : List (List ℚ)) : List (List ℚ) :=
  normalizeMatrixFloor nf (pcaTransform g (scalerTransform mean scale rows))

/-- Written to the spec's words for comparison with the code: the
ReducedVector derivation the spec prescribes for every pipeline output —
standardize with the fitted mean and scale, project onto the fitted
axes, then unit-normalize (n is the square root of the projected row's
sum of squares). -/
def specReducedRow (mean scale : List ℚ) (axes : List (List ℚ)) (n : ℚ)
    (x : List ℚ) : List ℚ :=
  normalizeRowRaw (axes.map (fun a => dot (standardizeRow mean scale x) a)) n

/-! ### Keep-mask split (src/api/create_unbiased_dataset.py
lines 120-130) -/

/-- keep_mask = np.ones(N, dtype=bool); for idx in
unique_indices_to_remove: if idx < len(keep_mask): keep_mask[idx] =
False.  Indices at or beyond N are silently skipped. -/
def buildKeepMask (n : Nat) (idxs : List Nat) : List Bool :=
  idxs.foldl (fun m idx => if idx < n then m.set idx false else m)
    (List.replicate n true)

/-- all_embeddings[keep_mask]: the rows at true positions, in order. -/
def keptOfMask {α : Type} (rows : List α) (mask : List Bool) : List α :=
  ((rows.zip mask).filter (fun p => p.2)).map Prod.fst

/-- all_embeddings[~keep_mask]: the rows at false positions, in order. -/
def removedOfMask {α : Type} (rows : List α) (mask : List Bool) : List α :=
  ((rows.zip mask).filter (fun p => !p.2)).map Prod.fst

/-- The rebalancer's three 6-D outputs (lines 144-173): a single PCA
state f — the one fit on the full embedding matrix on line 149 — is used
to transform the full, kept and removed row sets. -/
structure Rebalancer6dOutput where
  all6 : List (List ℚ)
  kept6 : List (List ℚ)
  removed6 : List (List ℚ)

/-- Lines 121-173 end to end: split the rows with the keep mask and
produce the three 6-D matrices with the one fitted reducer. -/
def runRebalancer6d (f : FittedPCA) (nf : List ℚ → ℚ)
    (rows : List (List ℚ)) (mask : List Bool) : Rebalancer6dOutput :=
  ⟨rebalancer6d f nf rows,
    rebalancer6d f nf (keptOfMask rows mask),
    rebalancer6d f nf (removedOfMask rows mask)⟩

/-! ### Helper lemmas -/

theorem sumSq_map_div (v : List ℚ) (c : ℚ) (hc : c ≠ 0) :
    sumSq (v.map (fun x => x / c)) = sumSq v / (c * c) := by
  induction v with
  | nil => simp [sumSq]
  | cons x t ih =>
    simp only [sumSq, List.map_cons, List.map_map, List.sum_cons] at ih ⊢
    rw [ih]
    field_simp

theorem sumSq_eq_zero_of_forall_zero (v : List ℚ) (hv : ∀ x ∈ v, x = 0) :
    sumSq v = 0 := by
  induction v with
  | nil => simp [sumSq]
  | cons x t ih =>
    have hx : x = 0 := hv x (List.mem_cons_self x t)
    have ht : sumSq t = 0 := ih (fun y hy => hv y (List.mem_cons_of_mem x hy))
    simp only [sumSq, List.map_cons, List.sum_cons] at ht ⊢
    rw [hx, ht]
    ring

/-! ### C7: density monotonicity -/

/-- C7: for two clusters with the same point count m ≥ 2, all observed
neighbor distances being nonnegative, if the first cluster's average
k-NN distance is strictly smaller than the second's then its density
score 1/(avg + 1e-6) is strictly larger. -/
theorem density_monotone (m : Nat) (dsA dsB : List ℚ) (hm : 2 ≤ m)
    (hA : ∀ d ∈ dsA, 0 ≤ d) (hlt : avgOf dsA < avgOf dsB) :
    clusterDensityOf m dsB < clusterDensityOf m dsA := by
  have hk : 0 < neighborCount m := by
    simp only [neighborCount]
    omega
  have havgA : 0 ≤ avgOf dsA := by
    have hsum : 0 ≤ dsA.sum := List.sum_nonneg hA
    have hlen : (0 : ℚ) ≤ dsA.length := by positivity
    exact div_nonneg hsum hlen
  have hposA : 0 < avgOf dsA + 1 / 1000000 := by linarith
  have hltB : avgOf dsA + 1 / 1000000 < avgOf dsB + 1 / 1000000 := by linarith
  simp only [clusterDensityOf, clusterDensityFromAvg, if_pos hk]
  exact one_div_lt_one_div_of_lt hposA hltB

/-- Concrete instance of density_monotone at m = 2, dsA = [0], dsB = [1]. -/
theorem density_monotone_example :
    2 ≤ 2 ∧ (∀ d ∈ ([0] : List ℚ), 0 ≤ d) ∧ avgOf [0] < avgOf [1] ∧
      clusterDensityOf 2 [1] < clusterDensityOf 2 [0] := by
  refine ⟨le_refl 2, ?_, ?_, ?_⟩
  · intro d hd
    simp only [List.mem_singleton] at hd
    simp [hd]
  · simp [avgOf]
  · exact density_monotone 2 [0] [1] (le_refl 2)
      (by intro d hd; simp only [List.mem_singleton] at hd; simp [hd])
      (by simp [avgOf])

/-! ### C2: normalization invariants -/

/-- C2 counterexample: the 6-D row [1e-12, 0, 0, 0, 0, 0] has exact norm
1e-12 (so it is not the zero row), yet the floored per-cluster-export
normalization divides it by the floor 1e-10 and produces a row of
squared norm 1e-4, far outside any small tolerance of 1; moreover the
rebalancer normalization (no floor) disagrees with the floored one on
this row, so the two paths do not share the claimed 1e-10 floor
behavior. -/
theorem normalize_floor_counterexample :
    (1 / 10 ^ 12 : ℚ) * (1 / 10 ^ 12) = sumSq [1 / 10 ^ 12, 0, 0, 0, 0, 0] ∧
    (0 : ℚ) ≤ 1 / 10 ^ 12 ∧
    (∃ x ∈ ([1 / 10 ^ 12, 0, 0, 0, 0, 0] : List ℚ), x ≠ 0) ∧
    sumSq (normalizeRowFloor [1 / 10 ^ 12, 0, 0, 0, 0, 0] (1 / 10 ^ 12)) =
      1 / 10 ^ 4 ∧
    sumSq (normalizeRowFloor [1 / 10 ^ 12, 0, 0, 0, 0, 0] (1 / 10 ^ 12)) ≠ 1 ∧
    normalizeRowRaw [1 / 10 ^ 12, 0, 0, 0, 0, 0] (1 / 10 ^ 12) ≠
      normalizeRowFloor [1 / 10 ^ 12, 0, 0, 0, 0, 0] (1 / 10 ^ 12) := by
  refine ⟨by norm_num [sumSq], by norm_num,
    ⟨1 / 10 ^ 12, by norm_num, by norm_num⟩,
    by norm_num [sumSq, normalizeRowFloor],
    by norm_num [sumSq, normalizeRowFloor],
    by norm_num [normalizeRowRaw, normalizeRowFloor]⟩

/-- C2 amended: (a) on the per-cluster export path, a row whose exact
norm n satisfies n ≥ 1e-10 is normalized to squared norm exactly 1;
(b) on that path a row that is exactly zero maps to the zero row (its
norm 0 is floored to 1e-10 and 0/1e-10 = 0); (c) on the rebalancer path,
which applies no floor, a row with strictly positive norm is normalized
to squared norm exactly 1 — nothing guards a zero norm there. -/
theorem normalize_norm_invariant :
    (∀ (v : List ℚ) (n : ℚ), n * n = sumSq v → (1 / 10 ^ 10 : ℚ) ≤ n →
      sumSq (normalizeRowFloor v n) = 1) ∧
    (∀ (v : List ℚ) (n : ℚ), (∀ x ∈ v, x = 0) → 0 ≤ n → n * n = sumSq v →
      ∀ x ∈ normalizeRowFloor v n, x = 0) ∧
    (∀ (v : List ℚ) (n : ℚ), n * n = sumSq v → 0 < n →
      sumSq (normalizeRowRaw v n) = 1) := by
  refine ⟨?_, ?_, ?_⟩
  · intro v n hn hfloor
    have hpos : (0 : ℚ) < n := lt_of_lt_of_le (by norm_num) hfloor
    have hmax : max n (1 / 10 ^ 10 : ℚ) = n := max_eq_left hfloor
    have hne : n ≠ 0 := ne_of_gt hpos
    simp only [normalizeRowFloor, hmax]
    rw [sumSq_map_div v n hne, ← hn]
    exact div_self (by positivity)
  · intro v n hv hn0 hn
    have hsum : sumSq v = 0 := sumSq_eq_zero_of_forall_zero v hv
    have hzero : n = 0 := by
      have : n * n = 0 := by rw [hn, hsum]
      exact (mul_self_eq_zero).1 this
    intro x hx
    simp only [normalizeRowFloor, List.mem_map] at hx
    obtain ⟨y, hy, rfl⟩ := hx
    rw [hv y hy]
    simp
  · intro v n hn hpos
    have hne : n ≠ 0 := ne_of_gt hpos
    simp only [normalizeRowRaw]
    rw [sumSq_map_div v n hne, ← hn]
    exact div_self (by positivity)

/-- Concrete instance of normalize_norm_invariant: the row [3/5, 4/5]
has exact norm 1, is normalized to squared norm 1 on both paths, and the
zero row maps to the zero row on the floored path. -/
theorem normalize_norm_invariant_example :
    sumSq (normalizeRowFloor [3 / 5, 4 / 5] 1) = 1 ∧
    (∀ x ∈ normalizeRowFloor [0, 0] 0, x = 0) ∧
    sumSq (normalizeRowRaw [3 / 5, 4 / 5] 1) = 1 := by
  refine ⟨?_, ?_, ?_⟩
  · exact normalize_norm_invariant.1 [3 / 5, 4 / 5] 1
      (by norm_num [sumSq]) (by norm_num)
  · exact normalize_norm_invariant.2.1 [0, 0] 0
      (by intro x hx; simpa using hx) (le_refl 0) (by norm_num [sumSq])
  · exact normalize_norm_invariant.2.2 [3 / 5, 4 / 5] 1
      (by norm_num [sumSq]) one_pos

/-! ### C8: clustering parameter defaults -/

/-- C8 counterexample: the signature default of min_cluster_size in
find_dense_clusters is 5, not 10. -/
theorem default_min_cluster_size_ne_ten :
    findDenseClustersDefaults.min_cluster_size ≠ 10 := by decide

/-- C8 amended: when find_dense_clusters is invoked without explicit
keyword arguments its defaults are min_cluster_size = 5, min_samples = 5
and n_clusters = 10; the value 10 for the minimum cluster size is passed
explicitly by main() (together with min_samples = 5). -/
theorem cluster_param_defaults (k : Nat) :
    findDenseClustersDefaults.min_cluster_size = 5 ∧
    findDenseClustersDefaults.min_samples = 5 ∧
    findDenseClustersDefaults.n_clusters = 10 ∧
    (mainCallParams k).min_cluster_size = 10 ∧
    (mainCallParams k).min_samples = 5 :=
  ⟨rfl, rfl, rfl, rfl, rfl⟩

/-! ### C4: removal sampling determinism -/

/-- C4: for a fixed cluster membership (and the fixed seed 42 and
removal fraction 1/2 hard-coded in the source), two runs of the removal
loop that start from arbitrary, possibly different, ambient generator
states select identical removal index lists: random.seed(42) is executed
before each cluster's sample, so the incoming state never influences the
selection. -/
theorem removal_sampling_deterministic (R : RNGModel)
    (clusters : List (List Nat)) (s s' : Nat) :
    (removalLoop R clusters s).1 = (removalLoop R clusters s').1 := by
  induction clusters generalizing s s' with
  | nil => rfl
  | cons ids rest ih =>
    simp only [removalLoop]
    have hstep : clusterRemovalStep R s ids = clusterRemovalStep R s' ids := rfl
    rw [hstep, ih (clusterRemovalStep R s' ids).2 (clusterRemovalStep R s' ids).2]

/-! ### C5: removal counts -/

/-- C5: provided the sampler satisfies the contract of random.sample
(returns exactly k elements when k does not exceed the population size,
drawn without replacement from the population), each cluster's selection
has exactly floor(count * 1/2) indices, where count is the size of the
deduplicated member id set, and the selection is a duplicate-free subset
of that set; and the kept record count plus the removed record count
equals the original record count N whenever the removal labels are
distinct and in range. -/
theorem rebalancer_counts (R : RNGModel)
    (hlen : ∀ s pop k, k ≤ pop.length → ((R.sample s pop k).1).length = k)
    (hsub : ∀ s pop k, (R.sample s pop k).1 ⊆ pop)
    (hnd : ∀ s pop k, pop.Nodup → ((R.sample s pop k).1).Nodup)
    (s : Nat) (ids : List Nat) (N : Nat) (rs : List Nat)
    (hrsnd : rs.Nodup) (hrslt : ∀ i ∈ rs, i < N) :
    ((clusterRemovalStep R s ids).1).length =
      Nat.floor (((dedupIds ids).length : ℚ) * (1 / 2)) ∧
    (clusterRemovalStep R s ids).1 ⊆ dedupIds ids ∧
    ((clusterRemovalStep R s ids).1).Nodup ∧
    (dfDrop N rs).length + (dfLoc N rs).length = N := by
  refine ⟨?_, ?_, ?_, ?_⟩
  · have hk : (dedupIds ids).length / 2 ≤ (dedupIds ids).length :=
      Nat.div_le_self _ _
    have hfl : Nat.floor (((dedupIds ids).length : ℚ) * (1 / 2)) =
        (dedupIds ids).length / 2 := by
      rw [mul_one_div, show ((2 : ℚ)) = ((2 : ℕ) : ℚ) by norm_num,
        Nat.floor_div_nat, Nat.floor_natCast]
    rw [hfl]
    exact hlen _ _ _ hk
  · exact hsub _ _ _
  · exact hnd _ _ _ (List.nodup_dedup ids)
  · have hmem : ((List.range N).filter (fun i => decide (i ∈ rs))).length =
        rs.length := by
      have hperm :
          List.Perm ((List.range N).filter (fun i => decide (i ∈ rs))) rs := by
        rw [List.perm_ext_iff_of_nodup ((List.nodup_range N).filter _) hrsnd]
        intro a
        simp only [List.mem_filter, List.mem_range, decide_eq_true_eq]
        exact ⟨fun h => h.2, fun h => ⟨hrslt a h, h⟩⟩
      exact hperm.length_eq
    have hsplit : ((List.range N).filter (fun i => decide (i ∈ rs))).length +
        ((List.range N).filter
          (fun i => !decide (i ∈ rs))).length = N := by
      have := (List.filter_append_perm (fun i => decide (i ∈ rs))
        (List.range N)).length_eq
      simpa [List.length_append] using this
    have hdrop : dfDrop N rs =
        (List.range N).filter (fun i => !decide (i ∈ rs)) := by
      simp [dfDrop]
    rw [dfLoc, hdrop, ← hmem]
    omega

/-- Concrete instance of rebalancer_counts: the member list [0,1,2,0,3]
deduplicates to 4 ids, of which floor(4 * 1/2) = 2 are removed; with
N = 5 rows and removal labels [1,3], 3 kept plus 2 removed is 5. -/
theorem rebalancer_counts_example :
    ((clusterRemovalStep takeSampler 7 [0, 1, 2, 0, 3]).1).length =
      Nat.floor (((dedupIds [0, 1, 2, 0, 3]).length : ℚ) * (1 / 2)) ∧
    (dfDrop 5 [1, 3]).length + (dfLoc 5 [1, 3]).length = 5 := by
  have h := rebalancer_counts takeSampler
    (fun s pop k hk => by
      simp [takeSampler, List.length_take, Nat.min_eq_left hk])
    (fun s pop k => by
      simp only [takeSampler]
      exact List.take_subset k pop)
    (fun s pop k hpop => by
      simp only [takeSampler]
      exact hpop.sublist (List.take_sublist k pop))
    7 [0, 1, 2, 0, 3] 5 [1, 3] (by decide) (by decide)
  exact ⟨h.1, h.2.2.2⟩

/-! ### C3: derivation of the reduced vectors -/

/-- C3 counterexample: take fitted state mean = [0,0], axes the identity
pair, and the row [3,4]; with a fitted per-feature scale [3/5, 1/3] the
centered row is [3,4] (exact norm 5) while the standardized row is
[5,12] (exact norm 13).  The rebalancer's reduced vector — PCA on the
raw row, then normalize — is [3/5, 4/5], which differs from the
standardize-project-normalize vector [5/13, 12/13] the claim prescribes:
the rebalancer path never applies the per-feature scaling. -/
theorem rebalancer_not_standardized :
    (5 : ℚ) * 5 = sumSq (pcaRow ⟨[0, 0], [[1, 0], [0, 1]]⟩ [3, 4]) ∧
    (13 : ℚ) * 13 = sumSq (([[1, 0], [0, 1]] : List (List ℚ)).map
      (fun a => dot (standardizeRow [0, 0] [3 / 5, 1 / 3] [3, 4]) a)) ∧
    normalizeRowRaw (pcaRow ⟨[0, 0], [[1, 0], [0, 1]]⟩ [3, 4]) 5 ≠
      specReducedRow [0, 0] [3 / 5, 1 / 3] [[1, 0], [0, 1]] 13 [3, 4] := by
  refine ⟨?_, ?_, ?_⟩
  · norm_num [pcaRow, centerRow, dot, sumSq]
  · norm_num [standardizeRow, scaleRow, centerRow, dot, sumSq]
  · norm_num [pcaRow, centerRow, dot, specReducedRow, standardizeRow,
      scaleRow, normalizeRowRaw]

/-- C3 amended: each row of the rebalancer's 6-D outputs is obtained
from the corresponding source row by centering with the fitted mean,
projecting onto the fitted axes and unit-normalizing — with no
per-feature standard-deviation scaling — whereas each row of the
per-cluster export path is obtained by standardizing with the fitted
mean and scale, projecting, and normalizing with the 1e-10 floor. -/
theorem reduced_vector_derivation (f : FittedPCA) (nf : List ℚ → ℚ)
    (mean scale : List ℚ) (g : FittedPCA) (rows : List (List ℚ)) (i : Nat) :
    (rebalancer6d f nf rows)[i]? = (rows[i]?).map
      (fun x => normalizeRowRaw (pcaRow f x) (nf (pcaRow f x))) ∧
    (clusterAnalysis6d mean scale g nf rows)[i]? = (rows[i]?).map
      (fun x => normalizeRowFloor (pcaRow g (standardizeRow mean scale x))
        (nf (pcaRow g (standardizeRow mean scale x)))) := by
  constructor
  · simp only [rebalancer6d, normalizeMatrixRaw, pcaTransform,
      List.getElem?_map, Option.map_map]
    rfl
  · simp only [clusterAnalysis6d, normalizeMatrixFloor, pcaTransform,
      scalerTransform, List.getElem?_map, Option.map_map]
    rfl

/-! ### Helper lemmas for the keep-mask split -/

theorem maskFilter_map {α β : Type} (g : α → β) (p : Bool → Bool) :
    ∀ (rows : List α) (mask : List Bool),
      ((((rows.map g).zip mask).filter (fun q => p q.2)).map Prod.fst) =
        ((((rows.zip mask).filter (fun q => p q.2)).map Prod.fst).map g)
  | [], _ => by simp
  | _ :: _, [] => by simp
  | x :: t, b :: bs => by
    by_cases hb : p b = true
    · simp only [List.map_cons, List.zip_cons_cons, List.filter_cons, hb,
        if_pos, List.map_cons]
      rw [maskFilter_map g p t bs]
    · simp only [List.map_cons, List.zip_cons_cons, List.filter_cons, hb,
        Bool.false_eq_true, if_false]
      rw [maskFilter_map g p t bs]

theorem keptOfMask_map {α β : Type} (g : α → β) (rows : List α)
    (mask : List Bool) :
    keptOfMask (rows.map g) mask = (keptOfMask rows mask).map g := by
  simpa [keptOfMask] using maskFilter_map g (fun b => b) rows mask

theorem removedOfMask_map {α β : Type} (g : α → β) (rows : List α)
    (mask : List Bool) :
    removedOfMask (rows.map g) mask = (removedOfMask rows mask).map g := by
  simpa [removedOfMask] using maskFilter_map g (fun b => !b) rows mask

theorem rebalancer6d_eq_map (f : FittedPCA) (nf : List ℚ → ℚ)
    (rows : List (List ℚ)) :
    rebalancer6d f nf rows = rows.map
      (fun x => normalizeRowRaw (pcaRow f x) (nf (pcaRow f x))) := by
  simp [rebalancer6d, normalizeMatrixRaw, pcaTransform, List.map_map,
    Function.comp]

theorem mask_partition_perm {α : Type} (rows : List α) (mask : List Bool)
    (h : rows.length ≤ mask.length) :
    List.Perm (keptOfMask rows mask ++ removedOfMask rows mask) rows := by
  have h1 := (List.filter_append_perm (fun p : α × Bool => p.2)
    (rows.zip mask)).map Prod.fst
  rw [List.map_append] at h1
  have h3 : (rows.zip mask).map Prod.fst = rows := List.map_fst_zip rows mask h
  rw [h3] at h1
  exact h1

theorem foldl_set_length (n : Nat) (idxs : List Nat) :
    ∀ m : List Bool,
      (idxs.foldl (fun acc idx => if idx < n then acc.set idx false else acc)
        m).length = m.length := by
  induction idxs with
  | nil => intro m; rfl
  | cons i t ih =>
    intro m
    simp only [List.foldl_cons]
    rw [ih]
    by_cases h : i < n
    · simp [h]
    · simp [h]

theorem buildKeepMask_length (n : Nat) (idxs : List Nat) :
    (buildKeepMask n idxs).length = n := by
  rw [buildKeepMask, foldl_set_length n idxs, List.length_replicate]

theorem buildKeepMask_filter_aux (n : Nat) :
    ∀ (idxs : List Nat) (m : List Bool),
      ((idxs.filter (fun i => decide (i < n))).foldl
        (fun acc idx => if idx < n then acc.set idx false else acc) m) =
      (idxs.foldl (fun acc idx => if idx < n then acc.set idx false else acc) m)
  | [], _ => rfl
  | i :: t, m => by
    by_cases h : i < n
    · rw [List.filter_cons_of_pos (by simpa using h), List.foldl_cons,
        List.foldl_cons, if_pos h]
      exact buildKeepMask_filter_aux n t (m.set i false)
    · rw [List.filter_cons_of_neg (by simpa using h), List.foldl_cons,
        if_neg h]
      exact buildKeepMask_filter_aux n t m

/-! ### C6: single fit, coordinate-system consistency -/

/-- C6: the rebalancer holds one fitted PCA state f — fit on the full
embedding matrix — and transforms the full, kept and removed row sets
with it: its kept and removed 6-D outputs are exactly the independent
transforms of each partition's raw rows under f, and they also equal the
corresponding selection of rows from the transformed full matrix, so
both partitions live in the single coordinate system of f. -/
theorem single_fit_consistency (f : FittedPCA) (nf : List ℚ → ℚ)
    (rows : List (List ℚ)) (mask : List Bool) :
    (runRebalancer6d f nf rows mask).kept6 =
      rebalancer6d f nf (keptOfMask rows mask) ∧
    (runRebalancer6d f nf rows mask).removed6 =
      rebalancer6d f nf (removedOfMask rows mask) ∧
    (runRebalancer6d f nf rows mask).kept6 =
      keptOfMask ((runRebalancer6d f nf rows mask).all6) mask ∧
    (runRebalancer6d f nf rows mask).removed6 =
      removedOfMask ((runRebalancer6d f nf rows mask).all6) mask := by
  refine ⟨rfl, rfl, ?_, ?_⟩
  · show rebalancer6d f nf (keptOfMask rows mask) =
      keptOfMask (rebalancer6d f nf rows) mask
    rw [rebalancer6d_eq_map, rebalancer6d_eq_map, keptOfMask_map]
  · show rebalancer6d f nf (removedOfMask rows mask) =
      removedOfMask (rebalancer6d f nf rows) mask
    rw [rebalancer6d_eq_map, rebalancer6d_eq_map, removedOfMask_map]

/-! ### C10: the keep-mask split is a partition -/

/-- C10: for every removal index list — including lists with indices at
or beyond N, which the mask construction silently skips, as witnessed by
the final conjunct saying the mask only depends on the in-range
indices — the embedding split is a partition: the mask has one entry per
row, kept and removed rows together are a permutation of the original
rows, each side preserves the original row order (it is a sublist), and
the kept count plus the removed count equals N. -/
theorem mask_split_partition (rows : List (List ℚ)) (idxs : List Nat) :
    (buildKeepMask rows.length idxs).length = rows.length ∧
    List.Perm (keptOfMask rows (buildKeepMask rows.length idxs) ++
      removedOfMask rows (buildKeepMask rows.length idxs)) rows ∧
    List.Sublist (keptOfMask rows (buildKeepMask rows.length idxs)) rows ∧
    List.Sublist (removedOfMask rows (buildKeepMask rows.length idxs)) rows ∧
    (keptOfMask rows (buildKeepMask rows.length idxs)).length +
      (removedOfMask rows (buildKeepMask rows.length idxs)).length =
        rows.length ∧
    buildKeepMask rows.length
      (idxs.filter (fun i => decide (i < rows.length))) =
      buildKeepMask rows.length idxs := by
  have hlen : (buildKeepMask rows.length idxs).length = rows.length :=
    buildKeepMask_length rows.length idxs
  have hperm := mask_partition_perm rows (buildKeepMask rows.length idxs)
    (le_of_eq hlen.symm)
  have hfst : (rows.zip (buildKeepMask rows.length idxs)).map Prod.fst =
      rows :=
    List.map_fst_zip rows _ (le_of_eq hlen.symm)
  refine ⟨hlen, hperm, ?_, ?_, ?_, ?_⟩
  · have hsub := (List.filter_sublist
      (l := rows.zip (buildKeepMask rows.length idxs))
      (p := fun p => p.2)).map Prod.fst
    rw [hfst] at hsub
    exact hsub
  · have hsub := (List.filter_sublist
      (l := rows.zip (buildKeepMask rows.length idxs))
      (p := fun p => !p.2)).map Prod.fst
    rw [hfst] at hsub
    exact hsub
  · have := hperm.length_eq
    simpa [List.length_append] using this
  · rw [buildKeepMask, buildKeepMask, buildKeepMask_filter_aux]

/-! ### Helper lemmas for the top-K selection -/

theorem pair_sublist_antisymm {α : Type} {a b : α} :
    ∀ {l : List α}, l.Nodup → List.Sublist [a, b] l →
      List.Sublist [b, a] l → a = b := by
  intro l
  induction l with
  | nil =>
    intro _ h1 _
    exact absurd h1 (by simp)
  | cons x t ih =>
    intro hnd h1 h2
    have hx : x ∉ t := (List.nodup_cons.mp hnd).1
    have hndt : t.Nodup := (List.nodup_cons.mp hnd).2
    cases h1 with
    | cons _ h1' =>
      cases h2 with
      | cons _ h2' => exact ih hndt h1' h2'
      | cons₂ _ h2' =>
        exact absurd (h1'.subset (by simp)) hx
    | cons₂ _ h1' =>
      cases h2 with
      | cons _ h2' =>
        exact absurd (h2'.subset (by simp)) hx
      | cons₂ _ h2' => rfl

theorem sublist_pair_of_firstLt :
    ∀ {ps : List (Int × ℚ)} {a b : Int × ℚ},
      ps.Pairwise (fun x y => x.1 < y.1) → a ∈ ps → b ∈ ps → a.1 < b.1 →
      List.Sublist [a, b] ps := by
  intro ps
  induction ps with
  | nil =>
    intro a b _ ha _ _
    exact absurd ha (List.not_mem_nil a)
  | cons p t ih =>
    intro a b hps ha hb hlt
    have hp : ∀ y ∈ t, p.1 < y.1 := (List.pairwise_cons.mp hps).1
    have ht := (List.pairwise_cons.mp hps).2
    rcases List.mem_cons.mp ha with rfl | hat
    · rcases List.mem_cons.mp hb with rfl | hbt
      · exact absurd hlt (lt_irrefl _)
      · exact List.Sublist.cons₂ a (List.singleton_sublist.mpr hbt)
    · rcases List.mem_cons.mp hb with rfl | hbt
      · exact absurd hlt (lt_asymm (hp a hat))
      · exact List.Sublist.cons p (ih ht hat hbt hlt)

theorem uniqueNonNoiseLabels_nodup (labels : List Int) :
    (uniqueNonNoiseLabels labels).Nodup :=
  ((List.perm_insertionSort (· ≤ ·) labels.dedup).nodup_iff.mpr
    (List.nodup_dedup labels)).filter _

theorem uniqueNonNoiseLabels_sorted (labels : List Int) :
    (uniqueNonNoiseLabels labels).Pairwise (· < ·) := by
  have hle : (labels.dedup.insertionSort (· ≤ ·)).Pairwise (· ≤ ·) :=
    List.sorted_insertionSort (· ≤ ·) labels.dedup
  have hnd : (labels.dedup.insertionSort (· ≤ ·)).Nodup :=
    (List.perm_insertionSort (· ≤ ·) labels.dedup).nodup_iff.mpr
      (List.nodup_dedup labels)
  have hlt : (labels.dedup.insertionSort (· ≤ ·)).Pairwise (· < ·) :=
    (hle.and hnd).imp (fun h => lt_of_le_of_ne h.1 h.2)
  exact hlt.filter _

theorem densityPairs_pairwise_firstLt (labels : List Int) (density : Int → ℚ) :
    ((uniqueNonNoiseLabels labels).map
      (fun l => (l, density l))).Pairwise (fun x y => x.1 < y.1) := by
  rw [List.pairwise_map]
  exact uniqueNonNoiseLabels_sorted labels

theorem densityPairs_nodup (labels : List Int) (density : Int → ℚ) :
    ((uniqueNonNoiseLabels labels).map (fun l => (l, density l))).Nodup :=
  (densityPairs_pairwise_firstLt labels density).imp (fun h => by
    intro he
    rw [he] at h
    exact lt_irrefl _ h)

theorem mem_densityPairs_eq {labels : List Int} {density : Int → ℚ}
    {p : Int × ℚ}
    (hp : p ∈ (uniqueNonNoiseLabels labels).map (fun l => (l, density l))) :
    p.2 = density p.1 := by
  rcases List.mem_map.mp hp with ⟨l, _, rfl⟩
  rfl

theorem sortByDensityDesc_lex (labels : List Int) (density : Int → ℚ) :
    (sortByDensityDesc ((uniqueNonNoiseLabels labels).map
      (fun l => (l, density l)))).Pairwise
      (fun x y : Int × ℚ => y.2 < x.2 ∨ (x.2 = y.2 ∧ x.1 < y.1)) := by
  have hsortedGe : (sortByDensityDesc ((uniqueNonNoiseLabels labels).map
      (fun l => (l, density l)))).Pairwise densityGe :=
    List.sorted_insertionSort densityGe _
  have hsortedNd : (sortByDensityDesc ((uniqueNonNoiseLabels labels).map
      (fun l => (l, density l)))).Nodup :=
    (List.perm_insertionSort densityGe _).nodup_iff.mpr
      (densityPairs_nodup labels density)
  rw [List.pairwise_iff_forall_sublist]
  intro a b hab
  have hge : b.2 ≤ a.2 :=
    (List.pairwise_iff_forall_sublist.mp hsortedGe) hab
  rcases lt_or_eq_of_le hge with hlt2 | heq
  · exact Or.inl hlt2
  · have hasorted : a ∈ sortByDensityDesc ((uniqueNonNoiseLabels labels).map
        (fun l => (l, density l))) := hab.subset (by simp)
    have hbsorted : b ∈ sortByDensityDesc ((uniqueNonNoiseLabels labels).map
        (fun l => (l, density l))) := hab.subset (by simp)
    have hapairs : a ∈ (uniqueNonNoiseLabels labels).map
        (fun l => (l, density l)) := by
      rw [sortByDensityDesc] at hasorted
      exact (List.mem_insertionSort densityGe).mp hasorted
    have hbpairs : b ∈ (uniqueNonNoiseLabels labels).map
        (fun l => (l, density l)) := by
      rw [sortByDensityDesc] at hbsorted
      exact (List.mem_insertionSort densityGe).mp hbsorted
    have hne : a ≠ b := by
      intro hcontra
      rw [hcontra] at hab
      have := List.Nodup.sublist hab hsortedNd
      simp at this
    have hfne : a.1 ≠ b.1 := by
      intro hcontra
      apply hne
      have ha2 := mem_densityPairs_eq hapairs
      have hb2 := mem_densityPairs_eq hbpairs
      refine Prod.ext hcontra ?_
      rw [ha2, hb2, hcontra]
    rcases lt_or_gt_of_ne hfne with hflt | hfgt
    · exact Or.inr ⟨heq.symm, hflt⟩
    · exfalso
      have hpairSub : List.Sublist [b, a] ((uniqueNonNoiseLabels labels).map
          (fun l => (l, density l))) :=
        sublist_pair_of_firstLt (densityPairs_pairwise_firstLt labels density)
          hbpairs hapairs hfgt
      have hba : List.Sublist [b, a]
          (sortByDensityDesc ((uniqueNonNoiseLabels labels).map
            (fun l => (l, density l)))) := by
        rw [sortByDensityDesc]
        exact List.pair_sublist_insertionSort (le_of_eq heq.symm) hpairSub
      exact hfne (congrArg Prod.fst (pair_sublist_antisymm hsortedNd hab hba))

/-! ### C1: top-K selection correctness -/

/-- C1: for every clustering outcome (the label vector) and per-label
density assignment, the label list find_dense_clusters returns has
length min(K, number of non-noise clusters), and consecutive entries are
strictly descending by density with equal densities broken by ascending
label — exactly what the stable descending sort of the ascending-label
items produces. -/
theorem topk_selection (labels : List Int) (density : Int → ℚ) (K : Nat) :
    ((findDenseClusters labels density K).1).length =
      min K (uniqueNonNoiseLabels labels).length ∧
    ((findDenseClusters labels density K).1).Pairwise
      (fun l1 l2 => density l2 < density l1 ∨
        (density l1 = density l2 ∧ l1 < l2)) := by
  have hsortlen : (sortByDensityDesc ((uniqueNonNoiseLabels labels).map
      (fun l => (l, density l)))).length =
      (uniqueNonNoiseLabels labels).length := by
    rw [sortByDensityDesc, (List.perm_insertionSort densityGe _).length_eq,
      List.length_map]
  by_cases h0 : (uniqueNonNoiseLabels labels).length = 0
  · rw [findDenseClusters, if_pos h0]
    exact ⟨by simp [h0], by simp⟩
  · rw [findDenseClusters, if_neg h0]
    constructor
    · show (selectDensest labels density K).length = _
      rw [selectDensest]
      simp only [List.length_map, List.length_take]
      rw [hsortlen]
      omega
    · show (selectDensest labels density K).Pairwise _
      rw [selectDensest]
      rw [List.pairwise_map]
      have htake : ((sortByDensityDesc ((uniqueNonNoiseLabels labels).map
          (fun l => (l, density l)))).take
            (min K (sortByDensityDesc ((uniqueNonNoiseLabels labels).map
              (fun l => (l, density l)))).length)).Pairwise
          (fun x y : Int × ℚ => y.2 < x.2 ∨ (x.2 = y.2 ∧ x.1 < y.1)) :=
        List.Pairwise.sublist (List.take_sublist _ _)
          (sortByDensityDesc_lex labels density)
      refine List.Pairwise.imp_of_mem ?_ htake
      intro a b hma hmb hab
      have hapairs : a ∈ (uniqueNonNoiseLabels labels).map
          (fun l => (l, density l)) := by
        have h1 := List.mem_of_mem_take hma
        rw [sortByDensityDesc] at h1
        exact (List.mem_insertionSort densityGe).mp h1
      have hbpairs : b ∈ (uniqueNonNoiseLabels labels).map
          (fun l => (l, density l)) := by
        have h1 := List.mem_of_mem_take hmb
        rw [sortByDensityDesc] at h1
        exact (List.mem_insertionSort densityGe).mp h1
      have ha2 := mem_densityPairs_eq hapairs
      have hb2 := mem_densityPairs_eq hbpairs
      rcases hab with h | h
      · exact Or.inl (by rw [← ha2, ← hb2]; exact h)
      · exact Or.inr ⟨by rw [← ha2, ← hb2]; exact h.1, h.2⟩

/-! ### C9: empty clustering result -/

/-- C9: when the clustering labels every point as noise, so that no
non-noise cluster exists, find_dense_clusters takes the early-return
branch and produces the empty label list and the empty index list; in
this total model no exception is possible. -/
theorem all_noise_empty_result (labels : List Int) (density : Int → ℚ)
    (K : Nat) (h : ∀ l ∈ labels, l = -1) :
    findDenseClusters labels density K = ([], []) := by
  have huniq : uniqueNonNoiseLabels labels = [] := by
    rw [uniqueNonNoiseLabels, List.filter_eq_nil_iff]
    intro a ha
    have hmem : a ∈ labels := by
      rw [List.mem_insertionSort] at ha
      exact (List.mem_dedup).mp ha
    simp [h a hmem]
  rw [findDenseClusters, if_pos (by rw [huniq]; rfl)]

/-- Concrete instance of all_noise_empty_result: three noise points. -/
theorem all_noise_empty_result_example :
    (∀ l ∈ ([-1, -1, -1] : List Int), l = -1) ∧
    findDenseClusters [-1, -1, -1] (fun _ => 0) 2 = ([], []) :=
  ⟨by decide, all_noise_empty_result [-1, -1, -1] (fun _ => 0) 2 (by decide)⟩

end Overseer
